import Mathlib

/-!
Verification development for the possession data model and statistics
engine of the Basketball-Tracker Streamlit application
(`src/backend/streamlit_app.py`).  Python dictionaries holding possession
and game records are embedded as Lean structures; Python integers are
`Int`, nullable values are `Option`, and Python float arithmetic in the
analytics block is idealised as exact rational arithmetic with
round-half-to-even (the semantics of Python's `round`).
-/

set_option maxHeartbeats 1000000

/-- One logged possession, embedding the possession dictionaries built by
`update_possession` (defaults) and `load_games` (loaded rows).  Freshly
created records carry no `timestamp` key, hence `timestamp : Option`.
`points` is `None` or an integer; `outcome` may be `None` on rows loaded
from the store, while `defense` and `shot_quality` are coerced to strings
with `or ""` on every load. -/
structure Possession where
  id : String
  quarter : Int
  number : Int
  paint_touch : Bool
  transition : Bool
  points : Option Int
  outcome : Option String
  defense : String
  shot_quality : String
  timestamp : Option String
  deriving DecidableEq

/-- One game record of the registry (`st.session_state.games` entries). -/
structure Game where
  id : String
  name : String
  opponent : String
  date : String
  possessions : List Possession
  deriving DecidableEq

/-- The (quarter, number) slot key of a possession. -/
def pkey (p : Possession) : Int × Int := (p.quarter, p.number)

/-- A partial field-update map, embedding the `updates` dict passed to
`update_possession`; `none` means the key is absent from the dict. -/
structure Updates where
  id : Option String := none
  quarter : Option Int := none
  number : Option Int := none
  paint_touch : Option Bool := none
  transition : Option Bool := none
  points : Option (Option Int) := none
  outcome : Option (Option String) := none
  defense : Option String := none
  shot_quality : Option String := none
  deriving DecidableEq

/-- Python `existing.update(updates)`: overwrite exactly the named fields. -/
def applyUpdates (p : Possession) (u : Updates) : Possession :=
  { id := u.id.getD p.id
    quarter := u.quarter.getD p.quarter
    number := u.number.getD p.number
    paint_touch := u.paint_touch.getD p.paint_touch
    transition := u.transition.getD p.transition
    points := u.points.getD p.points
    outcome := u.outcome.getD p.outcome
    defense := u.defense.getD p.defense
    shot_quality := u.shot_quality.getD p.shot_quality
    timestamp := p.timestamp }

/-- The default record created by `update_possession` when the slot
(quarter, number) is empty; `fid` stands for the generated `uuid4`. -/
def default_possession (fid : String) (quarter number : Int) : Possession :=
  { id := fid
    quarter := quarter
    number := number
    paint_touch := false
    transition := false
    points := none
    outcome := some ""
    defense := ""
    shot_quality := ""
    timestamp := none }

/-- Replace the first possession matching the slot by its updated copy —
Python's `next(...)` followed by in-place `existing.update(updates)`. -/
def updateFirst (ps : List Possession) (quarter number : Int) (u : Updates) :
    List Possession :=
  match ps with
  | [] => []
  | p :: rest =>
    if p.quarter == quarter && p.number == number then applyUpdates p u :: rest
    else p :: updateFirst rest quarter number u

/-- List-level body of `update_possession` (source lines 81-100): find the
record at (quarter, number); if present update the first match in place,
otherwise append a fresh default record and merge the updates into it. -/
def upsertList (ps : List Possession) (quarter number : Int) (u : Updates)
    (fid : String) : List Possession :=
  match ps.find? (fun p => p.quarter == quarter && p.number == number) with
  | some _ => updateFirst ps quarter number u
  | none => ps ++ [applyUpdates (default_possession fid quarter number) u]

/-- Embedding of `update_possession(game, quarter, number, updates)`;
`fid` is the `str(uuid4())` drawn when a new record must be created. -/
def update_possession (game : Game) (quarter number : Int) (u : Updates)
    (fid : String) : Game :=
  { game with possessions := upsertList game.possessions quarter number u fid }

/-- Embedding of `delete_possession(game, quarter, number)` (source lines
103-110): drop the record at the slot, then decrement the `number` of every
remaining same-quarter record with a larger number. -/
def delete_possession (game : Game) (quarter number : Int) : Game :=
  let possessions := game.possessions.filter
    (fun p => !(p.quarter == quarter && p.number == number))
  { game with
    possessions := possessions.map (fun p =>
      if p.quarter == quarter && p.number > number then
        { p with number := p.number - 1 }
      else p) }

/-- The streak predicate of line 379:
`possession.get("paint_touch") and (possession.get("points") or 0) > 0`. -/
def possMade (p : Possession) : Bool :=
  p.paint_touch && decide (0 < p.points.getD 0)

/-- The accumulator loop of `count_paint_touch_three_make_streaks`
(source lines 375-389): `streak` is the running consecutive-match counter
and `total` the number of completed 3-streaks so far; a match beyond the
third (`streak > 3`) only `continue`s. -/
def streaksLoop : List Possession → Nat → Nat → Nat
  | [], _, total => total
  | p :: rest, streak, total =>
    if possMade p then
      if streak + 1 == 3 then streaksLoop rest (streak + 1) (total + 1)
      else streaksLoop rest (streak + 1) total
    else streaksLoop rest 0 total

/-- Embedding of `count_paint_touch_three_make_streaks(possessions)`. -/
def count_paint_touch_three_make_streaks (ps : List Possession) : Nat :=
  streaksLoop ps 0 0

/-- A row of the `possessions` table (schema at source lines 139-154):
`paint_touch` is NOT NULL, the columns added by `ALTER TABLE`
(`transition`, `defense`, `shot_quality`, `tracker`) and `points`,
`outcome` are nullable, `timestamp` is NOT NULL. -/
structure StoredRow where
  client_id : String
  number : Int
  quarter : Int
  paint_touch : Bool
  transition : Option Bool
  points : Option Int
  outcome : Option String
  defense : Option String
  shot_quality : Option String
  tracker : Option String
  timestamp : String
  deriving DecidableEq

/-- The slot key of a stored row. -/
def rkey (r : StoredRow) : Int × Int := (r.quarter, r.number)

/-- The `tracker IS NULL OR tracker = '' OR tracker = 'paint'` filter of the
possession query in `load_games` (source line 268). -/
def trackedRow (r : StoredRow) : Bool :=
  r.tracker == none || r.tracker == some "" || r.tracker == some "paint"

/-- The possession dictionary `load_games` builds from a stored row
(source lines 282-293): `transition` via `... is True`, `defense` and
`shot_quality` via `... or ""`. -/
def rowToPossession (r : StoredRow) : Possession :=
  { id := r.client_id
    number := r.number
    quarter := r.quarter
    paint_touch := r.paint_touch
    transition := r.transition == some true
    points := r.points
    outcome := r.outcome
    defense := (r.defense.getD "")
    shot_quality := (r.shot_quality.getD "")
    timestamp := some r.timestamp }

/-- Replace the first possession with the given slot key — a Python dict
assignment `deduped[key] = value` for a key already present keeps the
entry's position. -/
def replaceKey : List Possession → Int × Int → Possession → List Possession
  | [], _, _ => []
  | p :: rest, k, new =>
    if pkey p = k then new :: rest else p :: replaceKey rest k new

/-- One iteration of the dedup loop of `load_games` (source lines 274-293):
an existing entry with a timestamp `>=` the incoming row's wins
(`continue`), otherwise the incoming row replaces it. -/
def dedupStep (acc : List Possession) (r : StoredRow) : List Possession :=
  match acc.find? (fun p => pkey p == rkey r) with
  | some existing =>
    if r.timestamp ≤ existing.timestamp.getD "" then acc
    else replaceKey acc (rkey r) (rowToPossession r)
  | none => acc ++ [rowToPossession r]

/-- The full dedup pass of `load_games` over the tracker-filtered rows of
one game, in the order the store returns them. -/
def loadDedup (rows : List StoredRow) : List Possession :=
  (rows.filter trackedRow).foldl dedupStep []

/-- The `(quarter, number)` tuple order used by every
`sorted(..., key=lambda x: (x["quarter"], x["number"]))` in the source. -/
def keyLE (a b : Int × Int) : Prop := a.1 < b.1 ∨ (a.1 = b.1 ∧ a.2 ≤ b.2)

/-- Strict version of `keyLE`. -/
def keyLT (a b : Int × Int) : Prop := a.1 < b.1 ∨ (a.1 = b.1 ∧ a.2 < b.2)

instance : DecidableRel keyLE := fun a b =>
  inferInstanceAs (Decidable (_ ∨ _))

instance : DecidableRel keyLT := fun a b =>
  inferInstanceAs (Decidable (_ ∨ _))

/-- Possession order by slot key. -/
def possLE (p q : Possession) : Prop := keyLE (pkey p) (pkey q)

/-- Strict possession order by slot key. -/
def possLT (p q : Possession) : Prop := keyLT (pkey p) (pkey q)

instance : DecidableRel possLE := fun p q =>
  inferInstanceAs (Decidable (keyLE _ _))

instance : IsTotal Possession possLE := by
  constructor
  intro a b
  unfold possLE keyLE
  omega

instance : IsTrans Possession possLE := by
  constructor
  intro a b c
  unfold possLE keyLE
  omega

/-- Python's stable `sorted(..., key=lambda x: (x["quarter"], x["number"]))`. -/
def sortPoss (ps : List Possession) : List Possession :=
  ps.insertionSort possLE

/-- The possession list `load_games` attaches to one game, given the raw
stored rows of that game in store-returned order (source line 294). -/
def load_game_possessions (rows : List StoredRow) : List Possession :=
  sortPoss (loadDedup rows)

/-- Python `x or d` on an optional string: `None` and `""` are falsy. -/
def orDefault (o : Option String) (d : String) : String :=
  match o with
  | some s => if s = "" then d else s
  | none => d

/-- The row `sync_game` inserts for one in-memory possession (source lines
220-244): booleans via `... is True`, `defense`/`shot_quality` via
`... or ""`, `tracker` fixed to `"paint"`, `timestamp` via
`possession.get("timestamp") or date.today().isoformat()` with `today`
standing for the latter. -/
def possessionToRow (p : Possession) (today : String) : StoredRow :=
  { client_id := p.id
    number := p.number
    quarter := p.quarter
    paint_touch := p.paint_touch
    transition := some p.transition
    points := p.points
    outcome := p.outcome
    defense := some p.defense
    shot_quality := some p.shot_quality
    tracker := some "paint"
    timestamp := orDefault p.timestamp today }

/-- After `sync_game` (which first deletes every stored possession row of
the game and then re-inserts), the store holds exactly these rows for the
game. -/
def sync_game_rows (game : Game) (today : String) : List StoredRow :=
  game.possessions.map (fun p => possessionToRow p today)

/-- Round-half-to-even on an exact rational — the semantics of Python's
`round(x)` (idealising the float argument as the exact quotient). -/
def roundHalfEven (x : ℚ) : Int :=
  let fl : Int := Int.floor x
  if x - fl < 1/2 then fl
  else if 1/2 < x - fl then fl + 1
  else if fl % 2 = 0 then fl else fl + 1

/-- Python `round(x, 2)` on an exact rational. -/
def round2 (x : ℚ) : ℚ := (roundHalfEven (x * 100) : ℚ) / 100

/-- Result record of `defense_breakdown`. -/
structure DefenseStats where
  total : Nat
  paint_rate : Int
  ppp : ℚ
  deriving DecidableEq

/-- Embedding of `defense_breakdown(possessions, defense)` (source lines
392-399). -/
def defense_breakdown (ps : List Possession) (defense : String) : DefenseStats :=
  let filtered := ps.filter (fun p => p.defense.toLower == defense)
  let total := filtered.length
  let paint := (filtered.filter (fun p => p.paint_touch)).length
  let points : Int := (filtered.map (fun p => p.points.getD 0)).sum
  { total := total
    paint_rate := if total ≠ 0 then roundHalfEven (((paint : ℚ) / (total : ℚ)) * 100) else 0
    ppp := if total ≠ 0 then round2 ((points : ℚ) / (total : ℚ)) else 0 }

/-- The derived metrics computed by `render_analytics` over the filtered
and sorted analytics subset (source lines 438-457). -/
structure AnalyticsStats where
  total : Nat
  paint_touches : Nat
  transition_total : Nat
  points : Int
  transition_points : Int
  paint_rate : Int
  ppp : ℚ
  transition_rate : Int
  transition_ppp : ℚ
  transition_scores : Nat
  transition_score_rate : Int
  paint_scores : Nat
  paint_score_rate : Int
  non_paint_total : Nat
  non_paint_scores : Nat
  non_paint_score_rate : Int
  paint_touch_3_streaks : Nat
  deriving DecidableEq

/-- Embedding of the statistics block of `render_analytics` (source lines
438-457), applied to the already-filtered, already-sorted subset. -/
def render_analytics_stats (ps : List Possession) : AnalyticsStats :=
  let total := ps.length
  let paint_touches := (ps.filter (fun p => p.paint_touch)).length
  let transition_possessions := ps.filter (fun p => p.transition)
  let transition_total := transition_possessions.length
  let points : Int := (ps.map (fun p => p.points.getD 0)).sum
  let transition_points : Int :=
    (transition_possessions.map (fun p => p.points.getD 0)).sum
  let paint_touch_possessions := ps.filter (fun p => p.paint_touch)
  let non_paint_possessions := ps.filter (fun p => !p.paint_touch)
  let paint_scores :=
    (paint_touch_possessions.filter (fun p => decide (0 < p.points.getD 0))).length
  let transition_scores :=
    (transition_possessions.filter (fun p => decide (0 < p.points.getD 0))).length
  let non_paint_total := total - paint_touches
  let non_paint_scores :=
    (non_paint_possessions.filter (fun p => decide (0 < p.points.getD 0))).length
  { total := total
    paint_touches := paint_touches
    transition_total := transition_total
    points := points
    transition_points := transition_points
    paint_rate :=
      if total ≠ 0 then roundHalfEven (((paint_touches : ℚ) / (total : ℚ)) * 100) else 0
    ppp := if total ≠ 0 then round2 ((points : ℚ) / (total : ℚ)) else 0
    transition_rate :=
      if total ≠ 0 then roundHalfEven (((transition_total : ℚ) / (total : ℚ)) * 100) else 0
    transition_ppp :=
      if transition_total ≠ 0 then round2 ((transition_points : ℚ) / (transition_total : ℚ)) else 0
    transition_scores := transition_scores
    transition_score_rate :=
      if transition_total ≠ 0 then
        roundHalfEven (((transition_scores : ℚ) / (transition_total : ℚ)) * 100)
      else 0
    paint_scores := paint_scores
    paint_score_rate :=
      if paint_touches ≠ 0 then
        roundHalfEven (((paint_scores : ℚ) / (paint_touches : ℚ)) * 100)
      else 0
    non_paint_total := non_paint_total
    non_paint_scores := non_paint_scores
    non_paint_score_rate :=
      if non_paint_total ≠ 0 then
        roundHalfEven (((non_paint_scores : ℚ) / (non_paint_total : ℚ)) * 100)
      else 0
    paint_touch_3_streaks := count_paint_touch_three_make_streaks ps }

/-- The per-quarter visible row counts, embedding
`st.session_state.rows_by_quarter` (a dict keyed by `str(quarter)`; the
`Int` key stands for that string, `str` being injective on integers). -/
def RowCounts := List (Int × Int)

/-- Embedding of `get_rows_for_quarter` (source lines 77-78):
`rows_by_quarter.get(str(quarter), DEFAULT_ROWS)` with `DEFAULT_ROWS = 30`. -/
def get_rows_for_quarter (rc : RowCounts) (quarter : Int) : Int :=
  match List.lookup quarter rc with
  | some n => n
  | none => 30

/-- Dict assignment `rows_by_quarter[str(quarter)] = v`. -/
def setRows : RowCounts → Int → Int → RowCounts
  | [], q, v => [(q, v)]
  | (q', v') :: rest, q, v =>
    if q' = q then (q, v) :: rest else (q', v') :: setRows rest q v

/-- Embedding of the delete-button handler (source lines 697-701): delete
the possession at the slot, then shrink the quarter's visible row count to
`max(1, current_rows - 1)`. -/
def delete_button_handler (g : Game) (rc : RowCounts) (quarter number : Int) :
    Game × RowCounts :=
  let g' := delete_possession g quarter number
  let current := get_rows_for_quarter rc quarter
  (g', setRows rc quarter (max 1 (current - 1)))

/-- The game registry and active selection
(`st.session_state.games` / `st.session_state.active_game_id`). -/
structure AppState where
  games : List Game
  active_game_id : Option String
  deriving DecidableEq

/-- Python's `str.strip()`: remove leading and trailing whitespace. -/
def strip (s : String) : String :=
  ⟨((s.data.dropWhile Char.isWhitespace).reverse.dropWhile
      Char.isWhitespace).reverse⟩

/-- Embedding of the create-game handler (source lines 574-587): a no-op
unless the name is non-blank after `strip()`; otherwise insert the new game
at the front and make it active.  `fid` is the generated `str(uuid4())`. -/
def create_game (s : AppState) (gname opponent gdate fid : String) : AppState :=
  if strip gname = "" then s
  else
    { games :=
        { id := fid
          name := strip gname
          opponent := opponent
          date := gdate
          possessions := [] } :: s.games
      active_game_id := some fid }

/-! Helper lemmas -/

theorem getD_getD {α : Type} (o : Option α) (a : α) :
    o.getD (o.getD a) = o.getD a := by
  cases o <;> rfl

/-- `delete_possession` never changes a possession's quarter. -/
theorem delete_map_quarter (q k : Int) (p : Possession) :
    (if p.quarter == q && p.number > k then { p with number := p.number - 1 }
     else p).quarter = p.quarter := by
  split <;> rfl

theorem lookup_setRows (rc : RowCounts) (q v : Int) :
    List.lookup q (setRows rc q v) = some v := by
  induction rc with
  | nil => simp [setRows, List.lookup]
  | cons hd tl ih =>
    obtain ⟨q', v'⟩ := hd
    by_cases h : q' = q
    · simp [setRows, h, List.lookup]
    · simp only [setRows, if_neg h, List.lookup]
      have : (q == q') = false := by
        simp only [beq_eq_false_iff_ne, ne_eq]
        omega
      simp [this, ih]

/-- C9: `create_game` is a no-op when the name is blank after trimming;
otherwise it prepends a fresh game (trimmed name, empty possession list)
to the registry and makes it the active game. -/
theorem create_game_spec (s : AppState) (gname opponent gdate fid : String) :
    (strip gname = "" → create_game s gname opponent gdate fid = s) ∧
    (strip gname ≠ "" →
      (create_game s gname opponent gdate fid).games =
        { id := fid, name := strip gname, opponent := opponent, date := gdate,
          possessions := [] } :: s.games ∧
      (create_game s gname opponent gdate fid).active_game_id = some fid) := by
  constructor
  · intro h
    simp [create_game, h]
  · intro h
    simp [create_game, h]

/-- Witness for C9 at concrete inputs: a blank name is a no-op, a
non-blank name becomes the active game. -/
theorem create_game_spec_witness :
    create_game ⟨[], none⟩ "  " "Guelph" "2026-01-01" "g1" = ⟨[], none⟩ ∧
    (create_game ⟨[], none⟩ " vs X " "Guelph" "2026-01-01" "g2").active_game_id
      = some "g2" := by
  refine ⟨(create_game_spec ⟨[], none⟩ "  " "Guelph" "2026-01-01" "g1").1 (by decide),
    ((create_game_spec ⟨[], none⟩ " vs X " "Guelph" "2026-01-01" "g2").2 (by decide)).2⟩

/-- Deleting a slot touches neither records of other quarters nor
same-quarter records with smaller numbers (list level). -/
theorem delete_filter_other_quarter (l : List Possession) (q k : Int) :
    (((l.filter (fun p => !(p.quarter == q && p.number == k))).map
        (fun p => if p.quarter == q && p.number > k then
          { p with number := p.number - 1 } else p)).filter
      (fun p => !(p.quarter == q)))
      = l.filter (fun p => !(p.quarter == q)) := by
  rw [List.filter_map]
  have hcomp : ((fun p : Possession => !(p.quarter == q)) ∘
      (fun p => if p.quarter == q && p.number > k then
        { p with number := p.number - 1 } else p))
      = fun p : Possession => !(p.quarter == q) := by
    funext p
    simp only [Function.comp]
    split <;> rfl
  rw [hcomp, List.filter_filter]
  have hpred : ∀ p : Possession,
      ((!(p.quarter == q)) && !(p.quarter == q && p.number == k))
        = !(p.quarter == q) := by
    intro p
    by_cases h : p.quarter = q <;> simp [h]
  rw [List.filter_congr (fun p _ => hpred p)]
  conv_rhs => rw [show l.filter (fun p : Possession => !(p.quarter == q))
    = (l.filter (fun p : Possession => !(p.quarter == q))).map id from
      (List.map_id _).symm]
  apply List.map_congr_left
  intro p hp
  have : ¬ (p.quarter = q) := by
    have := List.of_mem_filter hp
    simpa using this
  simp [this]

/-- Same-quarter records with numbers below the deleted slot are exactly
preserved by the delete transformation (list level). -/
theorem delete_filter_lower (l : List Possession) (q k : Int) :
    (((l.filter (fun p => !(p.quarter == q && p.number == k))).map
        (fun p => if p.quarter == q && p.number > k then
          { p with number := p.number - 1 } else p)).filter
      (fun p => p.quarter == q && decide (p.number < k)))
      = l.filter (fun p => p.quarter == q && decide (p.number < k)) := by
  rw [List.filter_map]
  have hcomp : ((fun p : Possession => p.quarter == q && decide (p.number < k)) ∘
      (fun p => if p.quarter == q && p.number > k then
        { p with number := p.number - 1 } else p))
      = fun p : Possession => p.quarter == q && decide (p.number < k) := by
    funext p
    simp only [Function.comp]
    by_cases hq : p.quarter = q
    · by_cases hgt : p.number > k
      · have h1 : ¬ (p.number - 1 < k) := by omega
        have h2 : ¬ (p.number < k) := by omega
        simp [hq, hgt, h1, h2]
      · simp [hq, hgt]
    · simp [hq]
  rw [hcomp, List.filter_filter]
  have hpred : ∀ p : Possession,
      ((p.quarter == q && decide (p.number < k))
          && !(p.quarter == q && p.number == k))
        = (p.quarter == q && decide (p.number < k)) := by
    intro p
    by_cases hq : p.quarter = q
    · by_cases hlt : p.number < k
      · have : ¬ (p.number = k) := by omega
        simp [hq, hlt, this]
      · simp [hq, hlt]
    · simp [hq]
  rw [List.filter_congr (fun p _ => hpred p)]
  conv_rhs => rw [show l.filter (fun p : Possession => p.quarter == q && decide (p.number < k))
    = (l.filter (fun p : Possession => p.quarter == q && decide (p.number < k))).map id from
      (List.map_id _).symm]
  apply List.map_congr_left
  intro p hp
  have hmem := List.of_mem_filter hp
  have hq : p.quarter = q := by
    rcases Bool.and_eq_true_iff.mp hmem with h
    simpa using h.1
  have hlt : p.number < k := by
    rcases Bool.and_eq_true_iff.mp hmem with h
    simpa using h.2
  have : ¬ (p.number > k) := by omega
  simp [hq, this]

/-- C10: deleting the possession at (quarter, k) leaves every possession of
a different quarter, and every same-quarter possession with a smaller
number, completely unchanged (with relative order), and changes no field of
the game other than its possession list. -/
theorem delete_possession_frame (g : Game) (q k : Int) :
    (delete_possession g q k).id = g.id ∧
    (delete_possession g q k).name = g.name ∧
    (delete_possession g q k).opponent = g.opponent ∧
    (delete_possession g q k).date = g.date ∧
    ((delete_possession g q k).possessions.filter (fun p => !(p.quarter == q))
      = g.possessions.filter (fun p => !(p.quarter == q))) ∧
    ((delete_possession g q k).possessions.filter
        (fun p => p.quarter == q && decide (p.number < k))
      = g.possessions.filter
        (fun p => p.quarter == q && decide (p.number < k))) := by
  refine ⟨rfl, rfl, rfl, rfl, ?_, ?_⟩
  · exact delete_filter_other_quarter g.possessions q k
  · exact delete_filter_lower g.possessions q k

/-- Counterexample to C8 as stated: quarter 1 holds a single possession
numbered 7, so slot (1, 5) has no materialized record, yet deleting (1, 5)
renumbers that possession to 6 — the possession collection changes. -/
theorem delete_unmaterialized_changes_possessions :
    (∀ p ∈ (Game.mk "g" "vs X" "" "2026-01-01"
        [Possession.mk "a" 1 7 false false none (some "") "" "" none]).possessions,
      ¬(p.quarter = 1 ∧ p.number = 5)) ∧
    (delete_possession
        (Game.mk "g" "vs X" "" "2026-01-01"
          [Possession.mk "a" 1 7 false false none (some "") "" "" none]) 1 5).possessions
      = [Possession.mk "a" 1 6 false false none (some "") "" "" none] := by
  constructor
  · intro p hp
    simp only [List.mem_singleton] at hp
    subst hp
    simp
  · rfl

/-- C8 (amended): the visible row count of a quarter is set to
`max 1 (count - 1)` by every delete, hence never drops below 1; it defaults
to 30 when never set; and deleting a slot with no materialized record still
performs the row-count decrement, leaving the possession collection
unchanged provided no same-quarter possession has a number exceeding the
deleted slot (the renumbering pass decrements such records otherwise). -/
theorem row_count_floor (g : Game) (rc : RowCounts) (q n : Int) :
    (get_rows_for_quarter ((delete_button_handler g rc q n).2) q
        = max 1 (get_rows_for_quarter rc q - 1)) ∧
    (1 ≤ get_rows_for_quarter ((delete_button_handler g rc q n).2) q) ∧
    (List.lookup q rc = none → get_rows_for_quarter rc q = 30) ∧
    ((∀ p ∈ g.possessions, ¬(p.quarter = q ∧ p.number = n)) →
      (∀ p ∈ g.possessions, p.quarter = q → p.number ≤ n) →
      (delete_button_handler g rc q n).1 = g) := by
  have hset : get_rows_for_quarter ((delete_button_handler g rc q n).2) q
      = max 1 (get_rows_for_quarter rc q - 1) := by
    simp [delete_button_handler, get_rows_for_quarter, lookup_setRows]
  refine ⟨hset, ?_, ?_, ?_⟩
  · rw [hset]; omega
  · intro h
    simp [get_rows_for_quarter, h]
  · intro h1 h2
    show delete_possession g q n = g
    obtain ⟨gid, gname, gopp, gdate, gposs⟩ := g
    simp only [delete_possession]
    congr 1
    have hfilter : gposs.filter
        (fun p => !(p.quarter == q && p.number == n)) = gposs := by
      apply List.filter_eq_self.mpr
      intro p hp
      have := h1 p hp
      by_cases hq : p.quarter = q
      · have : ¬ (p.number = n) := fun hn => this ⟨hq, hn⟩
        simp [hq, this]
      · simp [hq]
    rw [hfilter]
    conv_rhs => rw [show gposs = gposs.map id from (List.map_id _).symm]
    apply List.map_congr_left
    intro p hp
    have hle := h2 p hp
    by_cases hq : p.quarter = q
    · have : ¬ (p.number > n) := by omega
      simp [hq, this]
    · simp [hq]

/-- Witness for C8 at concrete inputs: one delete on an untouched quarter
takes the row count from the default 30 to 29 (never below 1), and deleting
the empty slot (1, 5) of a game whose quarter 1 has only numbers at most 5
leaves the game unchanged. -/
theorem row_count_floor_witness :
    (get_rows_for_quarter
        ((delete_button_handler
          (Game.mk "g" "vs X" "" "2026-01-01"
            [Possession.mk "a" 1 3 true false (some 2) (some "") "" "" none])
          [] 1 5).2) 1 = 29) ∧
    (get_rows_for_quarter [] 1 = 30) ∧
    ((delete_button_handler
        (Game.mk "g" "vs X" "" "2026-01-01"
          [Possession.mk "a" 1 3 true false (some 2) (some "") "" "" none])
        [] 1 5).1
      = Game.mk "g" "vs X" "" "2026-01-01"
          [Possession.mk "a" 1 3 true false (some 2) (some "") "" "" none]) := by
  refine ⟨?_, ?_, ?_⟩
  · have := (row_count_floor
      (Game.mk "g" "vs X" "" "2026-01-01"
        [Possession.mk "a" 1 3 true false (some 2) (some "") "" "" none])
      [] 1 5).1
    rw [this]
    decide
  · exact (row_count_floor
      (Game.mk "g" "vs X" "" "2026-01-01"
        [Possession.mk "a" 1 3 true false (some 2) (some "") "" "" none])
      [] 1 5).2.2.1 (by decide)
  · exact (row_count_floor
      (Game.mk "g" "vs X" "" "2026-01-01"
        [Possession.mk "a" 1 3 true false (some 2) (some "") "" "" none])
      [] 1 5).2.2.2
      (by decide) (by decide)

/-! Upsert machinery: merging the same updates twice is a no-op, and
updates that do not rebind quarter or number keep a record in its slot. -/

theorem applyUpdates_applyUpdates (p : Possession) (u : Updates) :
    applyUpdates (applyUpdates p u) u = applyUpdates p u := by
  simp [applyUpdates, getD_getD]

theorem applyUpdates_quarter (p : Possession) (u : Updates)
    (h : u.quarter = none) : (applyUpdates p u).quarter = p.quarter := by
  simp [applyUpdates, h]

theorem applyUpdates_number (p : Possession) (u : Updates)
    (h : u.number = none) : (applyUpdates p u).number = p.number := by
  simp [applyUpdates, h]

theorem updateFirst_updateFirst (ps : List Possession) (q n : Int)
    (u : Updates) (hq : u.quarter = none) (hn : u.number = none) :
    updateFirst (updateFirst ps q n u) q n u = updateFirst ps q n u := by
  induction ps with
  | nil => rfl
  | cons p rest ih =>
    by_cases hm : (p.quarter == q && p.number == n) = true
    · rw [updateFirst, if_pos hm, updateFirst]
      have hm' : ((applyUpdates p u).quarter == q
          && (applyUpdates p u).number == n) = true := by
        rw [applyUpdates_quarter p u hq, applyUpdates_number p u hn]
        exact hm
      rw [if_pos hm', applyUpdates_applyUpdates]
    · rw [updateFirst, if_neg hm, updateFirst, if_neg hm, ih]

theorem find?_updateFirst (ps : List Possession) (q n : Int) (u : Updates)
    (hq : u.quarter = none) (hn : u.number = none) :
    (updateFirst ps q n u).find? (fun p => p.quarter == q && p.number == n)
      = (ps.find? (fun p => p.quarter == q && p.number == n)).map
          (fun p => applyUpdates p u) := by
  induction ps with
  | nil => rfl
  | cons p rest ih =>
    by_cases hm : (p.quarter == q && p.number == n) = true
    · have hm' : ((applyUpdates p u).quarter == q
          && (applyUpdates p u).number == n) = true := by
        rw [applyUpdates_quarter p u hq, applyUpdates_number p u hn]
        exact hm
      rw [updateFirst, if_pos hm, List.find?_cons, List.find?_cons, hm, hm']
      rfl
    · have hm0 : (p.quarter == q && p.number == n) = false := by
        simpa using hm
      rw [updateFirst, if_neg hm, List.find?_cons, List.find?_cons, hm0, ih]

theorem updateFirst_append_nomatch (ps l : List Possession) (q n : Int)
    (u : Updates)
    (h : ps.find? (fun p => p.quarter == q && p.number == n) = none) :
    updateFirst (ps ++ l) q n u = ps ++ updateFirst l q n u := by
  induction ps with
  | nil => rfl
  | cons p rest ih =>
    rw [List.find?_cons] at h
    split at h
    · exact absurd h (by simp)
    · rw [List.cons_append, updateFirst]
      split
      · simp_all
      · rw [ih h, List.cons_append]

theorem mem_updateFirst_of_find? (ps : List Possession) (q n : Int)
    (u : Updates) (p₀ : Possession)
    (h : ps.find? (fun p => p.quarter == q && p.number == n) = some p₀) :
    applyUpdates p₀ u ∈ updateFirst ps q n u := by
  induction ps with
  | nil => simp at h
  | cons p rest ih =>
    rw [List.find?_cons] at h
    split at h
    · obtain rfl : p = p₀ := by simpa using h
      rename_i hm
      rw [updateFirst, if_pos hm]
      exact List.mem_cons_self _ _
    · rename_i hm
      rw [updateFirst, if_neg (by simpa using hm)]
      exact List.mem_cons_of_mem _ (ih h)

theorem upsertList_idem (ps : List Possession) (q n : Int) (u : Updates)
    (f1 f2 : String) (hq : u.quarter = none) (hn : u.number = none) :
    upsertList (upsertList ps q n u f1) q n u f2 = upsertList ps q n u f1 := by
  rcases hfind : ps.find? (fun p => p.quarter == q && p.number == n) with _ | p₀
  · have hd : ((applyUpdates (default_possession f1 q n) u).quarter == q
        && (applyUpdates (default_possession f1 q n) u).number == n) = true := by
      rw [applyUpdates_quarter _ u hq, applyUpdates_number _ u hn]
      simp [default_possession]
    have hsing : List.find? (fun p => p.quarter == q && p.number == n)
        [applyUpdates (default_possession f1 q n) u]
        = some (applyUpdates (default_possession f1 q n) u) := by
      rw [List.find?_cons, hd]
    have hinner : upsertList ps q n u f1
        = ps ++ [applyUpdates (default_possession f1 q n) u] := by
      rw [upsertList, hfind]
    rw [hinner, upsertList]
    rw [List.find?_append, hfind, Option.none_or, hsing]
    rw [updateFirst_append_nomatch _ _ _ _ _ hfind, updateFirst, if_pos hd,
      applyUpdates_applyUpdates]
  · have hinner : upsertList ps q n u f1 = updateFirst ps q n u := by
      rw [upsertList, hfind]
    rw [hinner, upsertList, find?_updateFirst _ _ _ _ hq hn, hfind,
      Option.map_some', updateFirst_updateFirst _ _ _ _ hq hn]

/-- Counterexample to C7 as stated: with the updates map
`{"quarter": 2}` on slot (1, 1), the first application creates the record
and moves it to quarter 2, so the second application no longer finds a
record at (1, 1) and creates a second one — two applications differ from
one. -/
theorem upsert_requarter_not_idempotent :
    update_possession (update_possession (Game.mk "g" "n" "" "d" []) 1 1
        { quarter := some 2 } "a") 1 1 { quarter := some 2 } "b"
      ≠ update_possession (Game.mk "g" "n" "" "d" []) 1 1
          { quarter := some 2 } "a" := by
  decide

/-- C7 (amended): upsert at (quarter, number) is idempotent for every game
state and every updates map that does not contain the keys `quarter` or
`number`: applying the same updates to the same slot twice yields a state
identical to applying it once (when the slot is absent a record is created
with defaults and the updates merged, when present the named fields are
overwritten in place). -/
theorem upsert_idempotent (g : Game) (q n : Int) (u : Updates)
    (f1 f2 : String) (hq : u.quarter = none) (hn : u.number = none) :
    update_possession (update_possession g q n u f1) q n u f2
      = update_possession g q n u f1 := by
  obtain ⟨gid, gname, gopp, gdate, gposs⟩ := g
  simp only [update_possession]
  rw [upsertList_idem gposs q n u f1 f2 hq hn]

/-- Witness for C7: replaying `{"points": 2, "paint_touch": true}` on the
empty slot (1, 1) of a fresh game twice equals applying it once. -/
theorem upsert_idempotent_witness :
    update_possession (update_possession (Game.mk "g" "n" "" "d" []) 1 1
        { paint_touch := some true, points := some (some 2) } "a") 1 1
        { paint_touch := some true, points := some (some 2) } "b"
      = update_possession (Game.mk "g" "n" "" "d" []) 1 1
          { paint_touch := some true, points := some (some 2) } "a" :=
  upsert_idempotent (Game.mk "g" "n" "" "d" []) 1 1
    { paint_touch := some true, points := some (some 2) } "a" "b" rfl rfl

/-- Counterexample to C5 as stated: points 99 is outside the enumerated
domain {0,1,2,3,4}, yet `update_possession` accepts the update and mutates
the record — there is no validation and no `ValidationError` in the code. -/
theorem update_out_of_domain_mutates :
    ((99 : Int) ∉ ([0, 1, 2, 3, 4] : List Int)) ∧
    (update_possession
        (Game.mk "g" "vs X" "" "2026-01-01"
          [Possession.mk "a" 1 1 true false (some 2) (some "") "" "" none])
        1 1 { points := some (some 99) } "f").possessions
      = [Possession.mk "a" 1 1 true false (some 99) (some "") "" "" none] := by
  constructor
  · decide
  · rfl

/-- C5 (amended): `update_possession` performs no domain validation — for
every updates map that does not rebind `quarter` or `number`, including one
whose values lie outside the enumerated domains, the update is applied: the
slot (quarter, number) afterwards holds a record carrying exactly the
updated field values. -/
theorem update_possession_no_validation (g : Game) (q n : Int) (u : Updates)
    (fid : String) (hq : u.quarter = none) (hn : u.number = none) :
    ∃ p ∈ (update_possession g q n u fid).possessions,
      p.quarter = q ∧ p.number = n ∧
      (∀ v, u.paint_touch = some v → p.paint_touch = v) ∧
      (∀ v, u.transition = some v → p.transition = v) ∧
      (∀ v, u.points = some v → p.points = v) ∧
      (∀ v, u.outcome = some v → p.outcome = v) ∧
      (∀ v, u.defense = some v → p.defense = v) ∧
      (∀ v, u.shot_quality = some v → p.shot_quality = v) := by
  rw [update_possession]
  show ∃ p ∈ upsertList g.possessions q n u fid, _
  rcases hfind : g.possessions.find?
      (fun p => p.quarter == q && p.number == n) with _ | p₀
  · refine ⟨applyUpdates (default_possession fid q n) u, ?_, ?_, ?_, ?_⟩
    · rw [upsertList, hfind]
      exact List.mem_append_right _ (List.mem_singleton.mpr rfl)
    · rw [applyUpdates_quarter _ u hq]
      rfl
    · rw [applyUpdates_number _ u hn]
      rfl
    · refine ⟨?_, ?_, ?_, ?_, ?_, ?_⟩ <;>
        (intro v hv; simp [applyUpdates, hv])
  · have hmem : applyUpdates p₀ u ∈ updateFirst g.possessions q n u :=
      mem_updateFirst_of_find? g.possessions q n u p₀ hfind
    have hp₀ := List.find?_some hfind
    simp only [Bool.and_eq_true, beq_iff_eq] at hp₀
    have hq₀ : p₀.quarter = q := hp₀.1
    have hn₀ : p₀.number = n := hp₀.2
    refine ⟨applyUpdates p₀ u, ?_, ?_, ?_, ?_⟩
    · rw [upsertList, hfind]
      exact hmem
    · rw [applyUpdates_quarter _ u hq, hq₀]
    · rw [applyUpdates_number _ u hn, hn₀]
    · refine ⟨?_, ?_, ?_, ?_, ?_, ?_⟩ <;>
        (intro v hv; simp [applyUpdates, hv])

/-- Witness for C5 (amended) at a concrete input: updating the empty slot
(7, 1) — quarter 7 is itself outside {1,2,3,4} — with out-of-domain points
99 and defense "pressing" succeeds and stores those values. -/
theorem update_possession_no_validation_witness :
    ∃ p ∈ (update_possession (Game.mk "g" "n" "" "d" []) 7 1
        { points := some (some 99), defense := some "pressing" } "f").possessions,
      p.quarter = 7 ∧ p.number = 1 ∧
      (∀ v, ({ points := some (some 99), defense := some "pressing" }
          : Updates).paint_touch = some v → p.paint_touch = v) ∧
      (∀ v, ({ points := some (some 99), defense := some "pressing" }
          : Updates).transition = some v → p.transition = v) ∧
      (∀ v, ({ points := some (some 99), defense := some "pressing" }
          : Updates).points = some v → p.points = v) ∧
      (∀ v, ({ points := some (some 99), defense := some "pressing" }
          : Updates).outcome = some v → p.outcome = v) ∧
      (∀ v, ({ points := some (some 99), defense := some "pressing" }
          : Updates).defense = some v → p.defense = v) ∧
      (∀ v, ({ points := some (some 99), defense := some "pressing" }
          : Updates).shot_quality = some v → p.shot_quality = v) :=
  update_possession_no_validation (Game.mk "g" "n" "" "d" []) 7 1
    { points := some (some 99), defense := some "pressing" } "f" rfl rfl

/-- Specification-side streak counter: the number of maximal runs of
consecutive `true` entries whose length is at least 3 — each such run
counts exactly once, however long, and `false` entries separate runs. -/
def runCount3 : List Bool → Nat
  | [] => 0
  | false :: rest => runCount3 rest
  | true :: rest =>
    (if 3 ≤ (rest.takeWhile id).length + 1 then 1 else 0)
      + runCount3 (rest.dropWhile id)
termination_by l => l.length
decreasing_by
  · simp only [List.length_cons]
    omega
  · have h := (List.dropWhile_sublist (l := rest) id).length_le
    simp only [List.length_cons]
    omega

theorem runCount3_replicate_lt3 (s : Nat) (h : s < 3) :
    runCount3 (List.replicate s true) = 0 := by
  match s, h with
  | 0, _ => simp [runCount3]
  | 1, _ => simp [runCount3, List.replicate]
  | 2, _ => simp [runCount3, List.replicate, List.takeWhile, List.dropWhile]

theorem runCount3_replicate_false (s : Nat) (h : s < 3) (m : List Bool) :
    runCount3 (List.replicate s true ++ false :: m) = runCount3 m := by
  match s, h with
  | 0, _ => simp [runCount3]
  | 1, _ => simp [runCount3, List.replicate, List.takeWhile, List.dropWhile]
  | 2, _ => simp [runCount3, List.replicate, List.takeWhile, List.dropWhile]

theorem runCount3_two_true (m : List Bool) :
    runCount3 (List.replicate 2 true ++ true :: m)
      = 1 + runCount3 (m.dropWhile id) := by
  simp [runCount3, List.replicate, List.takeWhile, List.dropWhile]

/-- The accumulator loop agrees with the run-splitting specification: with
current streak `s` and running total `t`, the final total is `t` plus the
number of maximal true-runs of length at least 3 in the remaining match
sequence, the current streak counting as a prefix run (already credited
when `s ≥ 3`). -/
theorem streaksLoop_eq_runCount3 (l : List Possession) :
    ∀ s t, streaksLoop l s t
      = t + (if s < 3 then runCount3 (List.replicate s true ++ l.map possMade)
             else runCount3 ((l.map possMade).dropWhile id)) := by
  induction l with
  | nil =>
    intro s t
    by_cases hs : s < 3
    · rw [streaksLoop, if_pos hs, List.map_nil, List.append_nil,
        runCount3_replicate_lt3 s hs]
      omega
    · rw [streaksLoop, if_neg hs]
      simp [runCount3]
  | cons p rest ih =>
    intro s t
    by_cases hp : possMade p = true
    · by_cases h3 : s + 1 = 3
      · have hs : s < 3 := by omega
        have hs2 : s = 2 := by omega
        rw [streaksLoop, if_pos hp, if_pos (by simp; omega), ih (s + 1) (t + 1),
          if_neg (by omega), if_pos hs, hs2, List.map_cons, hp,
          runCount3_two_true]
        omega
      · by_cases hs : s < 3
        · have hs1 : s + 1 < 3 := by omega
          rw [streaksLoop, if_pos hp, if_neg (by simp; omega), ih (s + 1) t,
            if_pos hs1, if_pos hs, List.map_cons, hp]
          have : List.replicate s true ++ true :: rest.map possMade
              = List.replicate (s + 1) true ++ rest.map possMade := by
            rw [List.replicate_succ', List.append_assoc]
            rfl
          rw [this]
        · have hs1 : ¬ (s + 1 < 3) := by omega
          rw [streaksLoop, if_pos hp, if_neg (by simp; omega), ih (s + 1) t,
            if_neg hs1, if_neg hs, List.map_cons, hp, List.dropWhile_cons]
          simp
    · have hp' : possMade p = false := by simpa using hp
      rw [streaksLoop, if_neg (by simp [hp']), ih 0 t, if_pos (by omega),
        List.replicate_zero, List.nil_append, List.map_cons, hp']
      by_cases hs : s < 3
      · rw [if_pos hs, runCount3_replicate_false s hs]
      · rw [if_neg hs, List.dropWhile_cons]
        simp [runCount3]

/-- C2: the streak counter equals the number of maximal runs of length at
least 3 of possessions matching "paint touch and points > 0" (longer runs
count once, a non-matching possession resets the run), and on the match
sequence [T,T,T,F,T,T,T,T,T] it returns 2. -/
theorem count_streaks_spec :
    (∀ ps : List Possession,
      count_paint_touch_three_make_streaks ps = runCount3 (ps.map possMade)) ∧
    count_paint_touch_three_make_streaks
      [Possession.mk "1" 1 1 true false (some 2) (some "") "" "" none,
       Possession.mk "2" 1 2 true false (some 2) (some "") "" "" none,
       Possession.mk "3" 1 3 true false (some 2) (some "") "" "" none,
       Possession.mk "4" 1 4 false false (some 2) (some "") "" "" none,
       Possession.mk "5" 1 5 true false (some 1) (some "") "" "" none,
       Possession.mk "6" 1 6 true false (some 3) (some "") "" "" none,
       Possession.mk "7" 1 7 true false (some 2) (some "") "" "" none,
       Possession.mk "8" 1 8 true false (some 2) (some "") "" "" none,
       Possession.mk "9" 1 9 true false (some 4) (some "") "" "" none] = 2 := by
  constructor
  · intro ps
    rw [count_paint_touch_three_make_streaks, streaksLoop_eq_runCount3 ps 0 0,
      if_pos (by omega), List.replicate_zero, List.nil_append, Nat.zero_add]
  · decide

/-- C6: paint-touch rate equals round(100 * count / |S|) and
points-per-possession equals the points sum (unset as 0) over |S| rounded
to 2 decimals; every rate, ppp and conditional rate — the per-defense
splits and score-rate-given-paint-touch included — is exactly 0 when its
denominator subset is empty (arithmetic idealised over exact rationals with
round-half-to-even). -/
theorem analytics_rates_spec (ps : List Possession) (d : String) :
    ((render_analytics_stats ps).paint_rate
        = if ps.length = 0 then 0
          else roundHalfEven
            (100 * ((ps.filter (fun p => p.paint_touch)).length : ℚ)
              / (ps.length : ℚ))) ∧
    ((render_analytics_stats ps).ppp
        = if ps.length = 0 then 0
          else round2
            ((((ps.map (fun p => p.points.getD 0)).sum : Int) : ℚ)
              / (ps.length : ℚ))) ∧
    (ps = [] →
      (render_analytics_stats ps).paint_rate = 0 ∧
      (render_analytics_stats ps).ppp = 0 ∧
      (render_analytics_stats ps).transition_rate = 0 ∧
      (render_analytics_stats ps).transition_ppp = 0 ∧
      (render_analytics_stats ps).transition_score_rate = 0 ∧
      (render_analytics_stats ps).paint_score_rate = 0 ∧
      (render_analytics_stats ps).non_paint_score_rate = 0 ∧
      (defense_breakdown ps d).paint_rate = 0 ∧
      (defense_breakdown ps d).ppp = 0) ∧
    ((ps.filter (fun p => p.paint_touch)).length = 0 →
      (render_analytics_stats ps).paint_score_rate = 0) ∧
    ((ps.filter (fun p => p.transition)).length = 0 →
      (render_analytics_stats ps).transition_ppp = 0 ∧
      (render_analytics_stats ps).transition_score_rate = 0) ∧
    (ps.length - (ps.filter (fun p => p.paint_touch)).length = 0 →
      (render_analytics_stats ps).non_paint_score_rate = 0) ∧
    ((ps.filter (fun p => p.defense.toLower == d)).length = 0 →
      (defense_breakdown ps d).paint_rate = 0 ∧
      (defense_breakdown ps d).ppp = 0) ∧
    ((defense_breakdown ps d).paint_rate
        = if (ps.filter (fun p => p.defense.toLower == d)).length = 0 then 0
          else roundHalfEven
            (100 * (((ps.filter (fun p => p.defense.toLower == d)).filter
                (fun p => p.paint_touch)).length : ℚ)
              / ((ps.filter (fun p => p.defense.toLower == d)).length : ℚ))) := by
  refine ⟨?_, ?_, ?_, ?_, ?_, ?_, ?_, ?_⟩
  · by_cases h : ps.length = 0
    · simp [render_analytics_stats, h]
    · simp only [render_analytics_stats, if_neg h, if_pos (by omega : ps.length ≠ 0)]
      congr 1
      ring
  · by_cases h : ps.length = 0
    · simp [render_analytics_stats, h]
    · simp only [render_analytics_stats]
      rw [if_pos (by omega : ps.length ≠ 0), if_neg h]
  · intro h
    subst h
    simp [render_analytics_stats, defense_breakdown]
  · intro h
    simp [render_analytics_stats, h]
  · intro h
    simp [render_analytics_stats, h]
  · intro h
    simp [render_analytics_stats, h]
  · intro h
    simp [defense_breakdown, h]
  · by_cases h : (ps.filter (fun p => p.defense.toLower == d)).length = 0
    · simp [defense_breakdown, h]
    · simp only [defense_breakdown]
      rw [if_pos (by omega : (ps.filter (fun p => p.defense.toLower == d)).length ≠ 0),
        if_neg h]
      congr 1
      ring

/-- Witness for C6 at the empty subset and the "man" defense: every rate
and ppp is 0 on the empty list. -/
theorem analytics_rates_spec_witness :
    (render_analytics_stats []).paint_rate = 0 ∧
    (render_analytics_stats []).ppp = 0 ∧
    (render_analytics_stats []).transition_ppp = 0 ∧
    (render_analytics_stats []).non_paint_score_rate = 0 ∧
    (defense_breakdown [] "man").paint_rate = 0 ∧
    (defense_breakdown [] "man").ppp = 0 := by
  obtain ⟨-, -, h3, h4, h5, h6, -, -⟩ := analytics_rates_spec [] "man"
  obtain ⟨a1, a2, -, a4, -, -, a7, d1, d2⟩ := h3 rfl
  exact ⟨a1, a2, (h5 rfl).1, h6 rfl, d1, d2⟩

/-- The quarter-q sublist of a deleted game is the quarter-q sublist of the
original with the slot removed and larger numbers shifted down, order
preserved (list level). -/
theorem delete_quarter_filter (l : List Possession) (q k : Int) :
    (((l.filter (fun p => !(p.quarter == q && p.number == k))).map
        (fun p => if p.quarter == q && p.number > k then
          { p with number := p.number - 1 } else p)).filter
      (fun p => p.quarter == q))
      = ((l.filter (fun p => p.quarter == q)).filter
          (fun p => !(p.number == k))).map
        (fun p => if p.number > k then { p with number := p.number - 1 }
          else p) := by
  rw [List.filter_map]
  have hcomp : ((fun p : Possession => p.quarter == q) ∘
      (fun p => if p.quarter == q && p.number > k then
        { p with number := p.number - 1 } else p))
      = fun p : Possession => p.quarter == q := by
    funext p
    simp only [Function.comp]
    split <;> rfl
  rw [hcomp, List.filter_filter, List.filter_filter]
  have hpred : ∀ p : Possession,
      ((p.quarter == q) && !(p.quarter == q && p.number == k))
        = ((!(p.number == k)) && (p.quarter == q)) := by
    intro p
    rcases Bool.eq_false_or_eq_true (p.quarter == q) with h1 | h1 <;>
      rcases Bool.eq_false_or_eq_true (p.number == k) with h2 | h2 <;>
        simp [h1, h2]
  rw [List.filter_congr (fun p _ => hpred p)]
  apply List.map_congr_left
  intro p hp
  have hq : p.quarter = q := by
    have := List.of_mem_filter hp
    rcases Bool.and_eq_true_iff.mp this with ⟨-, h2⟩
    simpa using h2
  by_cases hgt : p.number > k <;> simp [hq, hgt]

/-- Deleting a materialized slot k of a quarter whose numbers are exactly
1..N leaves that quarter's numbers exactly 1..N-1 (Nat level). -/
theorem range_delete (N k : Nat) (hk1 : 1 ≤ k) (hk2 : k ≤ N) :
    ((List.range' 1 N).filter (fun j => !(j == k))).map
      (fun j => if k < j then j - 1 else j) = List.range' 1 (N - 1) := by
  induction N with
  | zero => omega
  | succ n ihn =>
    rcases Nat.lt_or_ge n k with hlt | hge
    · have hk : k = n + 1 := by omega
      rw [List.range'_1_concat, List.filter_append, List.map_append]
      have hall : (List.range' 1 n).filter (fun j => !(j == k))
          = List.range' 1 n := by
        apply List.filter_eq_self.mpr
        intro j hj
        obtain ⟨i, hi, rfl⟩ := List.mem_range'.mp hj
        simp only [Bool.not_eq_true', beq_eq_false_iff_ne, ne_eq]
        omega
      rw [hall]
      have hid : (List.range' 1 n).map (fun j => if k < j then j - 1 else j)
          = List.range' 1 n := by
        conv_rhs => rw [show List.range' 1 n = (List.range' 1 n).map id from
          (List.map_id _).symm]
        apply List.map_congr_left
        intro j hj
        obtain ⟨i, hi, rfl⟩ := List.mem_range'.mp hj
        have : ¬ (k < 1 + 1 * i) := by omega
        simp only [if_neg this, id]
      rw [hid]
      have hdrop : [1 + n].filter (fun j => !(j == k)) = [] := by
        have h11 : (1 + n : Nat) = k := by omega
        simp [h11]
      rw [hdrop, List.map_nil, List.append_nil]
      simp
    · have hn1 : 1 ≤ n := by omega
      rw [List.range'_1_concat, List.filter_append, List.map_append,
        ihn hge]
      have hkeep : [1 + n].filter (fun j => !(j == k)) = [1 + n] := by
        have h11 : ¬ ((1 + n : Nat) = k) := by omega
        simp [h11]
      rw [hkeep]
      have hmap : [1 + n].map (fun j => if k < j then j - 1 else j) = [n] := by
        have : k < 1 + n := by omega
        simp [this]
      rw [hmap]
      have : List.range' 1 n = List.range' 1 (n - 1) ++ [n] := by
        conv_lhs => rw [show n = (n - 1) + 1 by omega]
        rw [List.range'_1_concat]
        congr 1
        simp
        omega
      rw [show n + 1 - 1 = n by omega, this]

/-- Int-level transport of `range_delete` along the cast of the numbers. -/
theorem range_delete_int (N k : Nat) (hk1 : 1 ≤ k) (hk2 : k ≤ N) :
    (((List.range' 1 N).map (fun (j : Nat) => (j : Int))).filter
        (fun j => !(j == (k : Int)))).map
      (fun j => if j > (k : Int) then j - 1 else j)
      = (List.range' 1 (N - 1)).map (fun (j : Nat) => (j : Int)) := by
  rw [List.filter_map]
  have hpred : ((fun j : Int => !(j == (k : Int))) ∘ (fun (j : Nat) => (j : Int)))
      = fun j : Nat => !(j == k) := by
    funext j
    simp [Function.comp, Int.natCast_inj]
  rw [hpred, List.map_map]
  have hshift : ∀ j ∈ (List.range' 1 N).filter (fun j => !(j == k)),
      ((fun j : Int => if j > (k : Int) then j - 1 else j) ∘
        (fun j : Nat => (j : Int))) j
        = ((fun j : Nat => (j : Int)) ∘ (fun j => if k < j then j - 1 else j)) j := by
    intro j hj
    have hj1 : 1 ≤ j := by
      have hmem := List.mem_of_mem_filter hj
      obtain ⟨i, hi, rfl⟩ := List.mem_range'.mp hmem
      omega
    simp only [Function.comp]
    by_cases hlt : k < j
    · have h1 : ((j : Int)) > (k : Int) := by exact_mod_cast hlt
      rw [if_pos h1, if_pos hlt, Nat.cast_sub hj1, Nat.cast_one]
    · have h1 : ¬ ((j : Int) > (k : Int)) := by exact_mod_cast hlt
      rw [if_neg h1, if_neg hlt]
  rw [List.map_congr_left hshift, ← List.map_map,
    range_delete N k hk1 hk2]

/-- C1: if a quarter's materialized possessions are numbered exactly 1..N
(in any order) and 1 ≤ k ≤ N, deleting slot (quarter, k) removes that
record, the surviving quarter records are exactly the original ones in
order with numbers above k decremented, the quarter's numbers are again
exactly 1..N-1, and every surviving id stems from a non-deleted record —
the deleted id is discarded. -/
theorem delete_renumbers (g : Game) (q : Int) (N k : Nat)
    (hperm : List.Perm
        ((g.possessions.filter (fun p => p.quarter == q)).map
          (fun p => p.number))
        ((List.range' 1 N).map (fun (j : Nat) => (j : Int))))
    (hk1 : 1 ≤ k) (hk2 : k ≤ N) :
    ((delete_possession g q (k : Int)).possessions.filter
        (fun p => p.quarter == q)
      = ((g.possessions.filter (fun p => p.quarter == q)).filter
          (fun p => !(p.number == (k : Int)))).map
        (fun p => if p.number > (k : Int) then { p with number := p.number - 1 }
          else p)) ∧
    (List.Perm
      (((delete_possession g q (k : Int)).possessions.filter
        (fun p => p.quarter == q)).map (fun p => p.number))
      ((List.range' 1 (N - 1)).map (fun (j : Nat) => (j : Int)))) ∧
    (∀ p' ∈ (delete_possession g q (k : Int)).possessions,
      ∃ p ∈ g.possessions, ¬(p.quarter = q ∧ p.number = (k : Int))
        ∧ p'.id = p.id) := by
  have hstruct : (delete_possession g q (k : Int)).possessions.filter
        (fun p => p.quarter == q)
      = ((g.possessions.filter (fun p => p.quarter == q)).filter
          (fun p => !(p.number == (k : Int)))).map
        (fun p => if p.number > (k : Int) then { p with number := p.number - 1 }
          else p) :=
    delete_quarter_filter g.possessions q (k : Int)
  refine ⟨hstruct, ?_, ?_⟩
  · rw [hstruct]
    have hnum : (((g.possessions.filter (fun p => p.quarter == q)).filter
          (fun p => !(p.number == (k : Int)))).map
        (fun p => if p.number > (k : Int) then { p with number := p.number - 1 }
          else p)).map (fun p => p.number)
        = (((g.possessions.filter (fun p => p.quarter == q)).map
            (fun p => p.number)).filter (fun j => !(j == (k : Int)))).map
          (fun j => if j > (k : Int) then j - 1 else j) := by
      rw [List.map_map]
      have h1 : ((fun p : Possession => p.number) ∘
          (fun p => if p.number > (k : Int) then { p with number := p.number - 1 }
            else p))
          = (fun j : Int => if j > (k : Int) then j - 1 else j) ∘
            (fun p : Possession => p.number) := by
        funext p
        simp only [Function.comp]
        split <;> rfl
      rw [h1, ← List.map_map]
      congr 1
      rw [List.filter_map]
      rfl
    rw [hnum]
    have hfilter := hperm.filter (fun j => !(j == (k : Int)))
    have hmap := hfilter.map (fun j => if j > (k : Int) then j - 1 else j)
    rw [range_delete_int N k hk1 hk2] at hmap
    exact hmap
  · intro p' hp'
    have hp'' : p' ∈ (g.possessions.filter
        (fun p => !(p.quarter == q && p.number == (k : Int)))).map
        (fun p => if p.quarter == q && p.number > (k : Int) then
          { p with number := p.number - 1 } else p) := hp'
    obtain ⟨p, hpmem, rfl⟩ := List.mem_map.mp hp''
    refine ⟨p, List.mem_of_mem_filter hpmem, ?_, ?_⟩
    · have := List.of_mem_filter hpmem
      simp only [Bool.not_eq_true', Bool.and_eq_false_iff,
        beq_eq_false_iff_ne, ne_eq] at this
      tauto
    · split <;> rfl

/-- Witness for C1 at a concrete game: quarter 1 numbered 1..3, deleting
slot 2 leaves numbers exactly 1..2. -/
theorem delete_renumbers_witness :
    List.Perm
      (((delete_possession
        (Game.mk "g" "n" "" "d"
          [Possession.mk "a" 1 1 true false (some 2) (some "") "" "" none,
           Possession.mk "b" 1 2 false false none (some "") "" "" none,
           Possession.mk "c" 1 3 true false (some 3) (some "") "" "" none])
        1 ((2 : Nat) : Int)).possessions.filter
        (fun p => p.quarter == 1)).map (fun p => p.number))
      ((List.range' 1 (3 - 1)).map (fun (j : Nat) => (j : Int))) :=
  (delete_renumbers
    (Game.mk "g" "n" "" "d"
      [Possession.mk "a" 1 1 true false (some 2) (some "") "" "" none,
       Possession.mk "b" 1 2 false false none (some "") "" "" none,
       Possession.mk "c" 1 3 true false (some 3) (some "") "" "" none])
    1 3 2 (by decide) (by decide) (by decide)).2.1

theorem pkey_rowToPossession (r : StoredRow) :
    pkey (rowToPossession r) = rkey r := rfl

theorem map_pkey_replaceKey (acc : List Possession) (k : Int × Int)
    (new : Possession) (hnew : pkey new = k) :
    (replaceKey acc k new).map pkey = acc.map pkey := by
  induction acc with
  | nil => rfl
  | cons p rest ih =>
    by_cases h : pkey p = k
    · rw [replaceKey, if_pos h, List.map_cons, List.map_cons, hnew, h]
    · rw [replaceKey, if_neg h, List.map_cons, List.map_cons, ih]

theorem mem_replaceKey (acc : List Possession) (k : Int × Int)
    (new p' : Possession) (hnodup : (acc.map pkey).Nodup)
    (h : p' ∈ replaceKey acc k new) :
    p' = new ∨ (p' ∈ acc ∧ pkey p' ≠ k) := by
  induction acc with
  | nil => simp [replaceKey] at h
  | cons p rest ih =>
    rw [List.map_cons, List.nodup_cons] at hnodup
    by_cases hk : pkey p = k
    · rw [replaceKey, if_pos hk] at h
      rcases List.mem_cons.mp h with rfl | hmem
      · exact Or.inl rfl
      · right
        refine ⟨List.mem_cons_of_mem _ hmem, ?_⟩
        intro hp'
        exact hnodup.1 (hk ▸ hp' ▸ List.mem_map_of_mem pkey hmem)
    · rw [replaceKey, if_neg hk] at h
      rcases List.mem_cons.mp h with rfl | hmem
      · exact Or.inr ⟨List.mem_cons_self _ _, hk⟩
      · rcases ih hnodup.2 hmem with h1 | ⟨h1, h2⟩
        · exact Or.inl h1
        · exact Or.inr ⟨List.mem_cons_of_mem _ h1, h2⟩

theorem new_mem_replaceKey (acc : List Possession) (k : Int × Int)
    (new : Possession) (p₀ : Possession) (hp₀ : p₀ ∈ acc)
    (hk : pkey p₀ = k) : new ∈ replaceKey acc k new := by
  induction acc with
  | nil => simp at hp₀
  | cons p rest ih =>
    by_cases h : pkey p = k
    · rw [replaceKey, if_pos h]
      exact List.mem_cons_self _ _
    · rw [replaceKey, if_neg h]
      rcases List.mem_cons.mp hp₀ with rfl | hmem
      · exact absurd hk h
      · exact List.mem_cons_of_mem _ (ih hmem)

/-- The dedup-loop invariant: `acc` (the Python dict's entries) has
pairwise-distinct slot keys; each entry stems from a processed row whose
timestamp is greatest among processed rows of that key; and every processed
row's key is represented. -/
def DedupInv (acc : List Possession) (seen : List StoredRow) : Prop :=
  ((acc.map pkey).Nodup) ∧
  (∀ p ∈ acc, ∃ r ∈ seen, rkey r = pkey p ∧ p = rowToPossession r ∧
    ∀ r' ∈ seen, rkey r' = pkey p → r'.timestamp ≤ r.timestamp) ∧
  (∀ r ∈ seen, ∃ p ∈ acc, pkey p = rkey r)

/-- One dedup iteration preserves the invariant. -/
theorem dedupStep_inv (acc : List Possession) (seen : List StoredRow)
    (r : StoredRow) (h : DedupInv acc seen) :
    DedupInv (dedupStep acc r) (seen ++ [r]) := by
  obtain ⟨hnodup, hsrc, hcover⟩ := h
  rcases hfind : acc.find? (fun p => pkey p == rkey r) with _ | ex
  · have hnone : ∀ p ∈ acc, pkey p ≠ rkey r := by
      intro p hp
      have := List.find?_eq_none.mp hfind p hp
      simpa using this
    have hstep : dedupStep acc r = acc ++ [rowToPossession r] := by
      rw [dedupStep, hfind]
    rw [hstep]
    refine ⟨?_, ?_, ?_⟩
    · rw [List.map_append, List.nodup_append]
      refine ⟨hnodup, List.nodup_singleton _, ?_⟩
      intro a ha hmem
      obtain ⟨p, hp, hpa⟩ := List.mem_map.mp ha
      have ha2 : a = rkey r := by
        simpa [pkey_rowToPossession] using hmem
      exact hnone p hp (by rw [hpa, ha2])
    · intro p hp
      rcases List.mem_append.mp hp with hpacc | hpnew
      · obtain ⟨r₀, hr₀, hkey₀, heq₀, hmax₀⟩ := hsrc p hpacc
        refine ⟨r₀, List.mem_append_left _ hr₀, hkey₀, heq₀, ?_⟩
        intro r' hr' hkey'
        rcases List.mem_append.mp hr' with h1 | h1
        · exact hmax₀ r' h1 hkey'
        · have heq : r' = r := by simpa using h1
          rw [heq] at hkey'
          exact absurd hkey'.symm (hnone p hpacc)
      · have hpeq : p = rowToPossession r := by simpa using hpnew
        rw [hpeq]
        refine ⟨r, List.mem_append_right _ (by simp),
          (pkey_rowToPossession r).symm, rfl, ?_⟩
        intro r' hr' hkey'
        rcases List.mem_append.mp hr' with h1 | h1
        · exfalso
          obtain ⟨p₀, hp₀, hkey₀⟩ := hcover r' h1
          refine hnone p₀ hp₀ ?_
          rw [hkey₀, hkey', pkey_rowToPossession]
        · have heq : r' = r := by simpa using h1
          rw [heq]
    · intro r'' hr''
      rcases List.mem_append.mp hr'' with h1 | h1
      · obtain ⟨p₀, hp₀, hkey₀⟩ := hcover r'' h1
        exact ⟨p₀, List.mem_append_left _ hp₀, hkey₀⟩
      · have heq : r'' = r := by simpa using h1
        rw [heq]
        exact ⟨rowToPossession r, List.mem_append_right _ (by simp),
          pkey_rowToPossession r⟩
  · have hexmem : ex ∈ acc := List.mem_of_find?_eq_some hfind
    have hexkey : pkey ex = rkey r := by
      have := List.find?_some hfind
      simpa using this
    obtain ⟨rex, hrex, hkeyex, heqex, hmaxex⟩ := hsrc ex hexmem
    have hts : ex.timestamp.getD "" = rex.timestamp := by
      rw [heqex]
      rfl
    by_cases hguard : r.timestamp ≤ ex.timestamp.getD ""
    · have hstep : dedupStep acc r = acc := by
        rw [dedupStep, hfind]
        show (if r.timestamp ≤ ex.timestamp.getD "" then acc
          else replaceKey acc (rkey r) (rowToPossession r)) = acc
        rw [if_pos hguard]
      rw [hstep]
      refine ⟨hnodup, ?_, ?_⟩
      · intro p hp
        obtain ⟨r₀, hr₀, hkey₀, heq₀, hmax₀⟩ := hsrc p hp
        refine ⟨r₀, List.mem_append_left _ hr₀, hkey₀, heq₀, ?_⟩
        intro r' hr' hkey'
        rcases List.mem_append.mp hr' with h1 | h1
        · exact hmax₀ r' h1 hkey'
        · have heq : r' = r := by simpa using h1
          rw [heq] at hkey' ⊢
          have hpex : p = ex :=
            List.inj_on_of_nodup_map hnodup hp hexmem
              (by rw [← hkey', hexkey])
          have hgetd : ex.timestamp.getD "" = r₀.timestamp := by
            rw [← hpex, heq₀]
            rfl
          rw [← hgetd]
          exact hguard
      · intro r'' hr''
        rcases List.mem_append.mp hr'' with h1 | h1
        · exact hcover r'' h1
        · have heq : r'' = r := by simpa using h1
          rw [heq]
          exact ⟨ex, hexmem, hexkey⟩
    · have hstep : dedupStep acc r
          = replaceKey acc (rkey r) (rowToPossession r) := by
        rw [dedupStep, hfind]
        show (if r.timestamp ≤ ex.timestamp.getD "" then acc
          else replaceKey acc (rkey r) (rowToPossession r))
          = replaceKey acc (rkey r) (rowToPossession r)
        rw [if_neg hguard]
      rw [hstep]
      have hlt : rex.timestamp < r.timestamp := by
        rw [← hts]
        exact lt_of_not_le hguard
      refine ⟨?_, ?_, ?_⟩
      · rw [map_pkey_replaceKey _ _ _ (pkey_rowToPossession r)]
        exact hnodup
      · intro p' hp'
        rcases mem_replaceKey acc _ _ p' hnodup hp' with hpnew | ⟨hpacc, hpkey⟩
        · rw [hpnew]
          refine ⟨r, List.mem_append_right _ (by simp),
            (pkey_rowToPossession r).symm, rfl, ?_⟩
          intro r' hr' hkey'
          rcases List.mem_append.mp hr' with h1 | h1
          · have hk : rkey r' = pkey ex := by
              rw [hexkey, ← pkey_rowToPossession r]
              exact hkey'
            exact le_of_lt (lt_of_le_of_lt (hmaxex r' h1 hk) hlt)
          · have heq : r' = r := by simpa using h1
            rw [heq]
        · obtain ⟨r₀, hr₀, hkey₀, heq₀, hmax₀⟩ := hsrc p' hpacc
          refine ⟨r₀, List.mem_append_left _ hr₀, hkey₀, heq₀, ?_⟩
          intro r' hr' hkey'
          rcases List.mem_append.mp hr' with h1 | h1
          · exact hmax₀ r' h1 hkey'
          · have heq : r' = r := by simpa using h1
            rw [heq] at hkey'
            exact absurd hkey'.symm hpkey
      · intro r'' hr''
        rcases List.mem_append.mp hr'' with h1 | h1
        · obtain ⟨p₀, hp₀, hkey₀⟩ := hcover r'' h1
          have hmem : pkey p₀
              ∈ (replaceKey acc (rkey r) (rowToPossession r)).map pkey := by
            rw [map_pkey_replaceKey _ _ _ (pkey_rowToPossession r)]
            exact List.mem_map_of_mem pkey hp₀
          obtain ⟨p₁, hp₁, hkey₁⟩ := List.mem_map.mp hmem
          exact ⟨p₁, hp₁, by rw [hkey₁, hkey₀]⟩
        · have heq : r'' = r := by simpa using h1
          rw [heq]
          exact ⟨rowToPossession r,
            new_mem_replaceKey acc _ _ ex hexmem hexkey,
            pkey_rowToPossession r⟩

/-- The dedup fold maintains the invariant over any row sequence. -/
theorem dedup_foldl_inv (rows : List StoredRow) :
    ∀ acc seen, DedupInv acc seen →
      DedupInv (rows.foldl dedupStep acc) (seen ++ rows) := by
  induction rows with
  | nil =>
    intro acc seen h
    simpa using h
  | cons r rest ih =>
    intro acc seen h
    have h1 := dedupStep_inv acc seen r h
    have h2 := ih (dedupStep acc r) (seen ++ [r]) h1
    simpa [List.append_assoc] using h2

/-- C3: loading a game's stored possession rows deduplicates them by
(quarter, number) — the result has pairwise-distinct slot keys, every
tracked row's key is represented, and each loaded possession is built from
a tracked row of its key whose timestamp string is greatest among that
key's rows — and the resulting list is sorted by (quarter, number). -/
theorem load_games_dedup_spec (rows : List StoredRow) :
    List.Pairwise possLE (load_game_possessions rows) ∧
    ((load_game_possessions rows).map pkey).Nodup ∧
    (∀ r ∈ rows, trackedRow r = true →
      ∃ p ∈ load_game_possessions rows, pkey p = rkey r) ∧
    (∀ p ∈ load_game_possessions rows,
      ∃ r ∈ rows, trackedRow r = true ∧ rkey r = pkey p ∧
        p = rowToPossession r ∧
        ∀ r' ∈ rows, trackedRow r' = true → rkey r' = pkey p →
          r'.timestamp ≤ r.timestamp) := by
  have h0 : DedupInv [] [] := by
    refine ⟨by simp, by simp, by simp⟩
  have hinv : DedupInv (loadDedup rows) (rows.filter trackedRow) := by
    have := dedup_foldl_inv (rows.filter trackedRow) [] [] h0
    simpa [loadDedup] using this
  have hperm : List.Perm (load_game_possessions rows) (loadDedup rows) :=
    List.perm_insertionSort possLE (loadDedup rows)
  obtain ⟨hnodup, hsrc, hcover⟩ := hinv
  refine ⟨?_, ?_, ?_, ?_⟩
  · exact List.sorted_insertionSort possLE (loadDedup rows)
  · exact ((hperm.map pkey).nodup_iff).mpr hnodup
  · intro r hr htr
    have hrf : r ∈ rows.filter trackedRow := List.mem_filter.mpr ⟨hr, htr⟩
    obtain ⟨p, hp, hkey⟩ := hcover r hrf
    exact ⟨p, hperm.mem_iff.mpr hp, hkey⟩
  · intro p hp
    have hp' : p ∈ loadDedup rows := hperm.mem_iff.mp hp
    obtain ⟨r, hrf, hkey, heq, hmax⟩ := hsrc p hp'
    have hrr := List.mem_filter.mp hrf
    refine ⟨r, hrr.1, hrr.2, hkey, heq, ?_⟩
    intro r' hr' htr' hkey'
    exact hmax r' (List.mem_filter.mpr ⟨hr', htr'⟩) hkey'

/-- Witness for C3 at two concrete rows sharing slot (quarter 1, number 2)
with timestamps T1 < T2: the loaded list contains an entry for the shared
key. -/
theorem load_games_dedup_spec_witness :
    ∃ p ∈ load_game_possessions
      [StoredRow.mk "c1" 2 1 true (some false) (some 1) (some "") (some "")
        (some "") (some "paint") "2026-01-01",
       StoredRow.mk "c2" 2 1 false (some true) (some 3) (some "turnover")
        (some "man") (some "good") none "2026-01-02"],
      pkey p = rkey (StoredRow.mk "c2" 2 1 false (some true) (some 3)
        (some "turnover") (some "man") (some "good") none "2026-01-02") :=
  (load_games_dedup_spec
    [StoredRow.mk "c1" 2 1 true (some false) (some 1) (some "") (some "")
      (some "") (some "paint") "2026-01-01",
     StoredRow.mk "c2" 2 1 false (some true) (some 3) (some "turnover")
      (some "man") (some "good") none "2026-01-02"]).2.2.1
    (StoredRow.mk "c2" 2 1 false (some true) (some 3) (some "turnover")
      (some "man") (some "good") none "2026-01-02")
    (by simp) (by decide)

/-- The field values of a possession, store surrogate keys and the
write-time `timestamp` marker (assigned during sync) excluded: quarter,
number, client id, paint_touch, transition, points, outcome, defense,
shot_quality. -/
def coreFields (p : Possession) :
    Int × Int × String × Bool × Bool × Option Int × Option String ×
      String × String :=
  (p.quarter, p.number, p.id, p.paint_touch, p.transition, p.points,
    p.outcome, p.defense, p.shot_quality)

/-- Strict (quarter, number) order on core-field tuples. -/
def cfLT (a b : Int × Int × String × Bool × Bool × Option Int ×
    Option String × String × String) : Prop :=
  keyLT (a.1, a.2.1) (b.1, b.2.1)

instance : IsAntisymm
    (Int × Int × String × Bool × Bool × Option Int × Option String ×
      String × String) cfLT := by
  constructor
  intro a b h1 h2
  exfalso
  unfold cfLT keyLT at h1 h2
  omega

theorem rkey_possessionToRow (p : Possession) (today : String) :
    rkey (possessionToRow p today) = pkey p := rfl

theorem trackedRow_possessionToRow (p : Possession) (today : String) :
    trackedRow (possessionToRow p today) = true := rfl

theorem coreFields_roundtrip (p : Possession) (today : String) :
    coreFields (rowToPossession (possessionToRow p today)) = coreFields p := by
  cases hp : p.transition <;>
    simp [coreFields, rowToPossession, possessionToRow, hp]

/-- Folding the dedup step over rows with pairwise-distinct keys, disjoint
from the accumulator's keys, appends each row's possession in order. -/
theorem foldl_dedup_nomatch (rows : List StoredRow) :
    ∀ acc : List Possession,
      (∀ r ∈ rows, ∀ p ∈ acc, pkey p ≠ rkey r) →
      ((rows.map rkey).Nodup) →
      rows.foldl dedupStep acc = acc ++ rows.map rowToPossession := by
  induction rows with
  | nil =>
    intro acc _ _
    simp
  | cons r rest ih =>
    intro acc hdis hnodup
    have hfind : acc.find? (fun p => pkey p == rkey r) = none :=
      List.find?_eq_none.mpr (fun p hp => by
        simpa using hdis r (List.mem_cons_self _ _) p hp)
    have hstep : dedupStep acc r = acc ++ [rowToPossession r] := by
      rw [dedupStep, hfind]
    rw [List.map_cons, List.nodup_cons] at hnodup
    rw [List.foldl_cons, hstep, ih (acc ++ [rowToPossession r]) ?_ hnodup.2]
    · rw [List.append_assoc]
      rfl
    · intro r' hr' p hp
      rcases List.mem_append.mp hp with h1 | h1
      · exact hdis r' (List.mem_cons_of_mem _ hr') p h1
      · have hpeq : p = rowToPossession r := by simpa using h1
        rw [hpeq, pkey_rowToPossession]
        intro hrr
        exact hnodup.1 (hrr ▸ List.mem_map_of_mem rkey hr')

theorem keyLE_ne_lt (a b : Int × Int) (h1 : keyLE a b) (h2 : a ≠ b) :
    keyLT a b := by
  obtain ⟨a1, a2⟩ := a
  obtain ⟨b1, b2⟩ := b
  unfold keyLE at h1
  unfold keyLT
  simp only [ne_eq, Prod.mk.injEq, not_and] at h2
  rcases h1 with h | ⟨h, h'⟩
  · exact Or.inl h
  · subst h
    refine Or.inr ⟨rfl, ?_⟩
    rcases lt_or_eq_of_le h' with hlt | heq
    · exact hlt
    · exact absurd heq (h2 rfl)

/-- After sorting, a possession list with pairwise-distinct slot keys is
strictly sorted on core fields. -/
theorem sortPoss_pairwise_cfLT (l : List Possession)
    (h : (l.map pkey).Nodup) :
    List.Pairwise cfLT ((sortPoss l).map coreFields) := by
  have hs : List.Pairwise possLE (sortPoss l) :=
    List.sorted_insertionSort possLE l
  have hn : ((sortPoss l).map pkey).Nodup :=
    (((List.perm_insertionSort possLE l).map pkey).nodup_iff).mpr h
  have hne : List.Pairwise (fun a b => pkey a ≠ pkey b) (sortPoss l) := by
    rw [List.Nodup, List.pairwise_map] at hn
    exact hn
  have hlt : List.Pairwise possLT (sortPoss l) := by
    refine (hs.and hne).imp ?_
    intro a b hab
    exact keyLE_ne_lt _ _ hab.1 hab.2
  rw [List.pairwise_map]
  exact hlt.imp (fun h => h)

/-- Keys are unchanged by the store round trip of a single possession. -/
theorem pkey_roundtrip (p : Possession) (today : String) :
    pkey (rowToPossession (possessionToRow p today)) = pkey p := rfl

/-- C4: for a game whose possessions have pairwise-distinct
(quarter, number) slots, syncing to the store and loading back yields a
possession list equal to the original by field values — surrogate keys and
the sync-assigned timestamp marker excluded — after sorting both sides by
(quarter, number). -/
theorem sync_load_round_trip (g : Game) (today : String)
    (hnodup : (g.possessions.map pkey).Nodup) :
    (load_game_possessions (sync_game_rows g today)).map coreFields
      = (sortPoss g.possessions).map coreFields := by
  have hrkeys : (sync_game_rows g today).map rkey = g.possessions.map pkey := by
    rw [sync_game_rows, List.map_map]
    rfl
  have hrnodup : ((sync_game_rows g today).map rkey).Nodup := by
    rw [hrkeys]
    exact hnodup
  have htracked : (sync_game_rows g today).filter trackedRow
      = sync_game_rows g today := by
    apply List.filter_eq_self.mpr
    intro r hr
    obtain ⟨p, hp, hpr⟩ := List.mem_map.mp hr
    rw [← hpr]
    exact trackedRow_possessionToRow p today
  have hded : loadDedup (sync_game_rows g today)
      = (sync_game_rows g today).map rowToPossession := by
    rw [loadDedup, htracked]
    have := foldl_dedup_nomatch (sync_game_rows g today) [] (by simp) hrnodup
    simpa using this
  have hcf : ((sync_game_rows g today).map rowToPossession).map coreFields
      = g.possessions.map coreFields := by
    rw [sync_game_rows, List.map_map, List.map_map]
    apply List.map_congr_left
    intro p hp
    exact coreFields_roundtrip p today
  have hkeys₂ : (((sync_game_rows g today).map rowToPossession).map pkey)
      = g.possessions.map pkey := by
    rw [sync_game_rows, List.map_map, List.map_map]
    rfl
  have hnodup₂ : (((sync_game_rows g today).map rowToPossession).map pkey).Nodup := by
    rw [hkeys₂]
    exact hnodup
  rw [load_game_possessions, hded]
  apply List.eq_of_perm_of_sorted (r := cfLT)
  · have h1 := (List.perm_insertionSort possLE
      ((sync_game_rows g today).map rowToPossession)).map coreFields
    have h2 := (List.perm_insertionSort possLE g.possessions).map coreFields
    rw [hcf] at h1
    exact h1.trans h2.symm
  · exact sortPoss_pairwise_cfLT _ hnodup₂
  · exact sortPoss_pairwise_cfLT _ hnodup

/-- Witness for C4 at a concrete two-possession game with distinct slots. -/
theorem sync_load_round_trip_witness :
    (load_game_possessions (sync_game_rows
        (Game.mk "g" "vs X" "" "2026-01-01"
          [Possession.mk "b" 1 2 false true none (some "turnover") "zone" "bad"
            (some "2026-01-01"),
           Possession.mk "a" 1 1 true false (some 2) (some "") "man" "good"
            none])
        "2026-02-02")).map coreFields
      = (sortPoss
          [Possession.mk "b" 1 2 false true none (some "turnover") "zone" "bad"
            (some "2026-01-01"),
           Possession.mk "a" 1 1 true false (some 2) (some "") "man" "good"
            none]).map coreFields :=
  sync_load_round_trip
    (Game.mk "g" "vs X" "" "2026-01-01"
      [Possession.mk "b" 1 2 false true none (some "turnover") "zone" "bad"
        (some "2026-01-01"),
       Possession.mk "a" 1 1 true false (some 2) (some "") "man" "good" none])
    "2026-02-02" (by decide)
